import Mathlib

/-!
Verification of the buffed-io byte-buffer library: a cursor (`Buffered`)
over a growable byte container (`Bytes`) with big-endian integer codecs,
null-terminated string codecs, 24-bit helpers, and panic-free range
indexing fallbacks.  Machine bytes are modelled as `Nat` values below 256,
buffers as `List Nat`, fallible reads as `Except ErrKind`, and operations
that can panic in the source (slice-bound violations, unconditional
recursion) return `Option`, with `none` marking the panic/divergence.
-/

namespace Buffed

/-- Error kinds surfaced by the codec layer (io::ErrorKind subset used). -/
inductive ErrKind where
  | unexpectedEof
  | invalidData
deriving DecidableEq, Repr

/-- The concrete byte container: `struct Bytes { bytes: Vec<u8> }`. -/
structure Bytes where
  bytes : List Nat
deriving DecidableEq, Repr

/-- `Bytes::new`: use the provided vector as the initial contents. -/
def Bytes.new (contents : List Nat) : Bytes := ⟨contents⟩

/-- `ToSlice::len` for `Bytes`: number of bytes held. -/
def Bytes.len (b : Bytes) : Nat := b.bytes.length

/-- `ToSlice::item_size_hint` for `Bytes`. -/
def item_size_hint : Nat := 1

/-- The cursor: `struct Buffered<T> { buffer: T, pos: usize }` at `T = Bytes`. -/
structure Buffered where
  buffer : Bytes
  pos : Nat
deriving DecidableEq, Repr

/-- `Buffered::using`: wrap a container with the position at 0. -/
def Buffered.using (container : Bytes) : Buffered := ⟨container, 0⟩

/-- `Buffered::new`: default (empty) container, position 0. -/
def Buffered.new : Buffered := ⟨⟨[]⟩, 0⟩

/-- `Buffered::advance_index`: `pos += amount * item_size_hint`. -/
def advance_index (b : Buffered) (amount : Nat) : Buffered :=
  { b with pos := b.pos + amount * item_size_hint }

/-- `Buffered::set_position`: replace `pos` (no bounds check). -/
def set_position (b : Buffered) (i : Nat) : Buffered := { b with pos := i }

/-- `Buffered::remaining`: `buffer.len() - pos` (callers ensure `pos ≤ len`). -/
def remaining (b : Buffered) : Nat := b.buffer.len - b.pos

/-- `Buffered::is_available`: `remaining() >= amount`. -/
def is_available (b : Buffered) (amount : Nat) : Bool :=
  decide (amount ≤ remaining b)

/-- Big-endian bytes of the low `8*w` bits of `v` (`T::to_be_bytes`). -/
def toBe : Nat → Nat → List Nat
  | 0, _ => []
  | w + 1, v => toBe w (v / 256) ++ [v % 256]

/-- Big-endian value of a byte list (`T::from_be_bytes`, unsigned). -/
def fromBe (l : List Nat) : Nat := l.foldl (fun acc b => acc * 256 + b) 0

/-- Two's-complement reading of an `8*w`-bit pattern (`iN::from_be_bytes`). -/
def toSigned (w : Nat) (n : Nat) : Int :=
  if n < 2 ^ (8 * w - 1) then (n : Int) else (n : Int) - 2 ^ (8 * w)

/-- Two's-complement `8*w`-bit pattern of a signed value (`iN::to_be_bytes`). -/
def toUnsigned (w : Nat) (v : Int) : Nat := (v % ((2 : Int) ^ (8 * w))).toNat

/-- `composite::read_u24`: `(b0 << 16) + (b1 << 8) + (b2 & 255)`. -/
def read_u24 (buf : List Nat) : Nat :=
  ((buf.getD 0 0) <<< 16) + ((buf.getD 1 0) <<< 8) + ((buf.getD 2 0) &&& 255)

/-- `composite::write_u24`: `[value >> 16, value >> 8, value]` as `u8`s. -/
def write_u24 (value : Nat) : List Nat :=
  [(value >>> 16) % 256, (value >>> 8) % 256, value % 256]

/-- The `impl_get_bytes!` macro: bounds check, read `size` bytes at `pos`,
advance, convert. On failure the cursor is returned untouched. -/
def impl_get_bytes (buf : Buffered) (size : Nat) (conversion : List Nat → α) :
    Except ErrKind α × Buffered :=
  let limit := buf.buffer.len
  let pos := buf.pos
  if pos + size > limit then (.error .unexpectedEof, buf)
  else
    (.ok (conversion ((buf.buffer.bytes.drop pos).take size)), advance_index buf size)

/-- `Buffered::get_u8`. -/
def get_u8 (b : Buffered) : Except ErrKind Nat × Buffered :=
  impl_get_bytes b 1 fromBe

/-- `Buffered::get_i8`. -/
def get_i8 (b : Buffered) : Except ErrKind Int × Buffered :=
  impl_get_bytes b 1 (fun s => toSigned 1 (fromBe s))

/-- `Buffered::get_i16`. -/
def get_i16 (b : Buffered) : Except ErrKind Int × Buffered :=
  impl_get_bytes b 2 (fun s => toSigned 2 (fromBe s))

/-- `Buffered::get_u16`. -/
def get_u16 (b : Buffered) : Except ErrKind Nat × Buffered :=
  impl_get_bytes b 2 fromBe

/-- `Buffered::get_u24`: guarded by `is_available(3)`.  The guard itself
evaluates `remaining() = len - pos`, which in the source underflows (and the
subsequent slice is out of bounds) when `pos > len`; that panic is `none`. -/
def get_u24 (b : Buffered) : Option (Except ErrKind Nat × Buffered) :=
  if b.pos ≤ b.buffer.len then
    if is_available b 3 then
      some (.ok (read_u24 ((b.buffer.bytes.drop b.pos).take 3)), advance_index b 3)
    else
      some (.error .unexpectedEof, b)
  else none

/-- `Buffered::get_i32`. -/
def get_i32 (b : Buffered) : Except ErrKind Int × Buffered :=
  impl_get_bytes b 4 (fun s => toSigned 4 (fromBe s))

/-- `Buffered::get_u32`. -/
def get_u32 (b : Buffered) : Except ErrKind Nat × Buffered :=
  impl_get_bytes b 4 fromBe

/-- `Buffered::get_i64`. -/
def get_i64 (b : Buffered) : Except ErrKind Int × Buffered :=
  impl_get_bytes b 8 (fun s => toSigned 8 (fromBe s))

/-- `Buffered::get_u64`. -/
def get_u64 (b : Buffered) : Except ErrKind Nat × Buffered :=
  impl_get_bytes b 8 fromBe

/-- `Iterator::position` over the byte list (the iterator `get_str` uses:
it starts at index 0 of the whole buffer, not at `pos`). -/
def position (p : Nat → Bool) : List Nat → Option Nat
  | [] => none
  | a :: l => if p a then some 0 else (position p l).map (· + 1)

/-- Continuation byte test for UTF-8 validation: `0x80..=0xBF`. -/
def utf8Cont (b : Nat) : Bool := 128 ≤ b && b ≤ 191

/-- The UTF-8 validity check performed by `String::from_utf8` (RFC 3629
well-formedness, the exact table used by the Rust standard library). -/
def utf8Valid : List Nat → Bool
  | [] => true
  | b0 :: rest =>
    if b0 < 128 then utf8Valid rest
    else if b0 < 194 then false
    else if b0 < 224 then
      match rest with
      | b1 :: r => utf8Cont b1 && utf8Valid r
      | [] => false
    else if b0 < 240 then
      match rest with
      | b1 :: b2 :: r =>
        (if b0 = 224 then decide (160 ≤ b1) && decide (b1 ≤ 191)
         else if b0 = 237 then decide (128 ≤ b1) && decide (b1 ≤ 159)
         else utf8Cont b1) && utf8Cont b2 && utf8Valid r
      | _ => false
    else if b0 < 245 then
      match rest with
      | b1 :: b2 :: b3 :: r =>
        (if b0 = 240 then decide (144 ≤ b1) && decide (b1 ≤ 191)
         else if b0 = 244 then decide (128 ≤ b1) && decide (b1 ≤ 143)
         else utf8Cont b1) && utf8Cont b2 && utf8Cont b3 && utf8Valid r
      | _ => false
    else false

/-- `Buffered::get_str`: find the first zero byte of the whole buffer,
slice `bytes[pos..index]` (a panic — `none` — when `index < pos`), decode
as UTF-8 and advance by the string length plus one.  The decoded string is
represented by its UTF-8 byte list. -/
def get_str (self : Buffered) : Option (Except ErrKind (List Nat) × Buffered) :=
  let pos := self.pos
  match position (fun c => c == 0) self.buffer.bytes with
  | none => some (.error .unexpectedEof, self)
  | some index =>
    if pos ≤ index then
      let s := (self.buffer.bytes.drop pos).take (index - pos)
      if utf8Valid s then
        some (.ok s, { self with pos := self.pos + (s.length + 1) })
      else
        some (.error .invalidData, self)
    else none

/-- `Vec` write of `value` into `l` at `pos`
(`l[pos..pos+value.len()].copy_from_slice(value)`), assuming it fits. -/
def copy_within (l : List Nat) (pos : Nat) (v : List Nat) : List Nat :=
  l.take pos ++ v ++ l.drop (pos + v.length)

/-- The `impl_put_bytes!` macro: if `pos + len(value) ≥ len(buffer)` resize
to `2 * len(buffer)` zero-filled, then copy `value` in at `pos` and advance.
The copy panics (`none`) when `pos + len(value)` still exceeds the buffer. -/
def impl_put_bytes (this : Buffered) (value : List Nat) : Option Buffered :=
  let pos := this.pos
  let slice_len := value.length
  let buf_len := this.buffer.bytes.length
  let grown :=
    if buf_len ≤ pos + slice_len then
      this.buffer.bytes ++ List.replicate buf_len 0
    else
      this.buffer.bytes
  if pos + slice_len ≤ grown.length then
    some (advance_index { this with buffer := ⟨copy_within grown pos value⟩ } slice_len)
  else none

/-- `Buffered::put_u8`. -/
def put_u8 (b : Buffered) (value : Nat) : Option Buffered :=
  impl_put_bytes b (toBe 1 value)

/-- `Buffered::put_i8`. -/
def put_i8 (b : Buffered) (value : Int) : Option Buffered :=
  impl_put_bytes b (toBe 1 (toUnsigned 1 value))

/-- `Buffered::put_i16`. -/
def put_i16 (b : Buffered) (value : Int) : Option Buffered :=
  impl_put_bytes b (toBe 2 (toUnsigned 2 value))

/-- `Buffered::put_u16`. -/
def put_u16 (b : Buffered) (value : Nat) : Option Buffered :=
  impl_put_bytes b (toBe 2 value)

/-- `Buffered::put_u24`. -/
def put_u24 (b : Buffered) (value : Nat) : Option Buffered :=
  impl_put_bytes b (write_u24 value)

/-- `Buffered::put_i32`. -/
def put_i32 (b : Buffered) (value : Int) : Option Buffered :=
  impl_put_bytes b (toBe 4 (toUnsigned 4 value))

/-- `Buffered::put_u32`. -/
def put_u32 (b : Buffered) (value : Nat) : Option Buffered :=
  impl_put_bytes b (toBe 4 value)

/-- `Buffered::put_u64`. -/
def put_u64 (b : Buffered) (value : Nat) : Option Buffered :=
  impl_put_bytes b (toBe 8 value)

/-- `Buffered::put_str`: write the UTF-8 bytes, then a zero terminator. -/
def put_str (b : Buffered) (value : List Nat) : Option Buffered :=
  (impl_put_bytes b value).bind (fun s => put_u8 s 0)

/-- `impl Index<RangeInclusive<usize>> for Bytes`, fuel-instrumented: the
non-empty branch evaluates `&self[start..=end]`, which resolves to this very
impl again (unconditional recursion in the source); `none` = divergence. -/
def index_range_inclusive : Nat → Bytes → Nat → Nat → Option (List Nat)
  | 0, _, _, _ => none
  | fuel + 1, b, start, stop =>
    if stop ≤ start then some [] else index_range_inclusive fuel b start stop

/-- `impl Index<RangeTo<usize>> for Bytes`, fuel-instrumented: the non-empty
branch evaluates `&self[..end]`, resolving to this impl again. -/
def index_range_to : Nat → Bytes → Nat → Option (List Nat)
  | 0, _, _ => none
  | fuel + 1, b, stop =>
    if stop = 0 then some [] else index_range_to fuel b stop

/-- `impl Index<RangeFrom<usize>> for Bytes`, fuel-instrumented: the
non-empty branch evaluates `&self[start..]`, resolving to this impl again. -/
def index_range_from : Nat → Bytes → Nat → Option (List Nat)
  | 0, _, _ => none
  | fuel + 1, b, start =>
    if b.len ≤ start then some [] else index_range_from fuel b start

/-! ### Basic codec lemmas -/

theorem toBe_length (w v : Nat) : (toBe w v).length = w := by
  induction w generalizing v with
  | zero => rfl
  | succ w ih => simp [toBe, ih]

theorem fromBe_append (l : List Nat) (x : Nat) :
    fromBe (l ++ [x]) = fromBe l * 256 + x := by
  simp [fromBe, List.foldl_append]

theorem fromBe_toBe (w v : Nat) : fromBe (toBe w v) = v % 2 ^ (8 * w) := by
  induction w generalizing v with
  | zero => simp [toBe, fromBe, Nat.mod_one]
  | succ w ih =>
    rw [toBe, fromBe_append, ih]
    rw [show 8 * (w + 1) = 8 + 8 * w from by ring, pow_add]
    rw [show (2 : Nat) ^ 8 = 256 from rfl, Nat.mod_mul]
    omega

theorem fromBe_toBe_of_lt {w v : Nat} (h : v < 2 ^ (8 * w)) :
    fromBe (toBe w v) = v := by
  rw [fromBe_toBe, Nat.mod_eq_of_lt h]

theorem toSigned_toUnsigned_1 (v : Int) (h1 : -128 ≤ v) (h2 : v < 128) :
    toSigned 1 (toUnsigned 1 v) = v := by
  unfold toSigned toUnsigned
  norm_num
  split_ifs <;> omega

theorem toSigned_toUnsigned_2 (v : Int) (h1 : -32768 ≤ v) (h2 : v < 32768) :
    toSigned 2 (toUnsigned 2 v) = v := by
  unfold toSigned toUnsigned
  norm_num
  split_ifs <;> omega

theorem toSigned_toUnsigned_4 (v : Int) (h1 : -2147483648 ≤ v) (h2 : v < 2147483648) :
    toSigned 4 (toUnsigned 4 v) = v := by
  unfold toSigned toUnsigned
  norm_num
  split_ifs <;> omega

theorem toUnsigned_lt (w : Nat) (v : Int) : toUnsigned w v < 2 ^ (8 * w) := by
  unfold toUnsigned
  have hcast : ((2 : Int) ^ (8 * w)) = ((2 ^ (8 * w) : Nat) : Int) := by push_cast; rfl
  rw [hcast]
  have hpos : (0 : Int) < ((2 ^ (8 * w) : Nat) : Int) := by positivity
  have h1 := Int.emod_lt_of_pos v hpos
  have h2 := Int.emod_nonneg v (ne_of_gt hpos)
  omega

/-! ### Write-path lemmas -/

theorem copy_within_length {l v : List Nat} {p : Nat} (h : p + v.length ≤ l.length) :
    (copy_within l p v).length = l.length := by
  simp [copy_within]
  omega

theorem copy_within_slice {l v : List Nat} {p : Nat} (h : p + v.length ≤ l.length) :
    ((copy_within l p v).drop p).take v.length = v := by
  unfold copy_within
  rw [List.append_assoc, List.drop_left' (by simp; omega), List.take_left' rfl]

theorem copy_within_take {l v : List Nat} {p : Nat} (h : p ≤ l.length) :
    (copy_within l p v).take p = l.take p := by
  unfold copy_within
  rw [List.append_assoc, List.take_append_of_le_length (by simp; omega), List.take_take]
  simp

theorem impl_put_eq (b : Buffered) (v : List Nat) :
    impl_put_bytes b v =
      (if b.pos + v.length ≤
          (if b.buffer.bytes.length ≤ b.pos + v.length then
            b.buffer.bytes ++ List.replicate b.buffer.bytes.length 0
          else b.buffer.bytes).length then
        some ⟨⟨copy_within
          (if b.buffer.bytes.length ≤ b.pos + v.length then
            b.buffer.bytes ++ List.replicate b.buffer.bytes.length 0
          else b.buffer.bytes) b.pos v⟩, b.pos + v.length⟩
      else none) := by
  simp [impl_put_bytes, advance_index, item_size_hint]

theorem put_spec {b b2 : Buffered} {v : List Nat}
    (h : impl_put_bytes b v = some b2) :
    b2.pos = b.pos + v.length ∧
    b.pos + v.length ≤ b2.buffer.len ∧
    ((b2.buffer.bytes.drop b.pos).take v.length = v) ∧
    (b.pos ≤ b.buffer.len → b2.buffer.bytes.take b.pos = b.buffer.bytes.take b.pos) ∧
    b2.buffer.len =
      (if b.buffer.len ≤ b.pos + v.length then 2 * b.buffer.len else b.buffer.len) := by
  rw [impl_put_eq] at h
  by_cases hg : b.buffer.bytes.length ≤ b.pos + v.length
  · simp only [if_pos hg] at h
    split at h
    next hfit =>
      obtain rfl : (⟨⟨copy_within (b.buffer.bytes ++ List.replicate b.buffer.bytes.length 0)
          b.pos v⟩, b.pos + v.length⟩ : Buffered) = b2 := Option.some.inj h
      have hfit' : b.pos + v.length ≤
          (b.buffer.bytes ++ List.replicate b.buffer.bytes.length 0).length := hfit
      refine ⟨rfl, ?_, copy_within_slice hfit', ?_, ?_⟩
      · show b.pos + v.length ≤ (copy_within _ b.pos v).length
        rw [copy_within_length hfit']
        exact hfit'
      · intro hp
        show (copy_within _ b.pos v).take b.pos = _
        rw [copy_within_take (le_trans (by simpa [Bytes.len] using hp) (by simp))]
        exact List.take_append_of_le_length (by simpa [Bytes.len] using hp)
      · show (copy_within _ b.pos v).length = _
        rw [copy_within_length hfit', if_pos (by simpa [Bytes.len] using hg)]
        simp [Bytes.len]
        ring
    next => exact absurd h (by simp)
  · simp only [if_neg hg] at h
    split at h
    next hfit =>
      obtain rfl : (⟨⟨copy_within b.buffer.bytes b.pos v⟩,
          b.pos + v.length⟩ : Buffered) = b2 := Option.some.inj h
      refine ⟨rfl, ?_, copy_within_slice hfit, ?_, ?_⟩
      · show b.pos + v.length ≤ (copy_within _ b.pos v).length
        rw [copy_within_length hfit]
        exact hfit
      · intro _
        show (copy_within _ b.pos v).take b.pos = _
        exact copy_within_take (by omega)
      · show (copy_within _ b.pos v).length = _
        rw [copy_within_length hfit, if_neg (by simpa [Bytes.len] using hg)]
        rfl
    next => exact absurd h (by simp)

theorem put_none {b : Buffered} {v : List Nat}
    (h : 2 * b.buffer.len < b.pos + v.length) :
    impl_put_bytes b v = none := by
  rw [impl_put_eq]
  have hlen : b.buffer.len = b.buffer.bytes.length := rfl
  rw [if_neg]
  split <;> simp <;> omega

/-! ### Read-path lemmas -/

theorem get_spec {b : Buffered} {size : Nat} (conv : List Nat → α)
    (h : b.pos + size ≤ b.buffer.len) :
    impl_get_bytes b size conv =
      (.ok (conv ((b.buffer.bytes.drop b.pos).take size)), advance_index b size) := by
  unfold impl_get_bytes
  rw [if_neg (by omega)]

theorem get_fail {b : Buffered} {size : Nat} (conv : List Nat → α)
    (h : b.buffer.len < b.pos + size) :
    impl_get_bytes b size conv = (.error .unexpectedEof, b) := by
  unfold impl_get_bytes
  rw [if_pos (by omega)]

theorem get_err_iff (b : Buffered) (size : Nat) (conv : List Nat → α) :
    (impl_get_bytes b size conv).1 = .error .unexpectedEof ↔
      b.buffer.len < b.pos + size := by
  by_cases h : b.pos + size ≤ b.buffer.len
  · rw [get_spec conv h]
    simp
    omega
  · rw [get_fail conv (by omega)]
    simpa using by omega

theorem get_ok_iff (b : Buffered) (size : Nat) (conv : List Nat → α) :
    (∃ x, (impl_get_bytes b size conv).1 = .ok x) ↔
      b.pos + size ≤ b.buffer.len := by
  by_cases h : b.pos + size ≤ b.buffer.len
  · rw [get_spec conv h]
    simpa using h
  · rw [get_fail conv (by omega)]
    simpa using h

theorem get_err_state {b : Buffered} {size : Nat} {conv : List Nat → α} {e : ErrKind}
    (h : (impl_get_bytes b size conv).1 = .error e) :
    (impl_get_bytes b size conv).2 = b := by
  by_cases hle : b.pos + size ≤ b.buffer.len
  · rw [get_spec conv hle] at h
    exact absurd h (by simp)
  · rw [get_fail conv (by omega)]

theorem get_buffer_eq (b : Buffered) (size : Nat) (conv : List Nat → α) :
    (impl_get_bytes b size conv).2.buffer = b.buffer := by
  by_cases hle : b.pos + size ≤ b.buffer.len
  · rw [get_spec conv hle]
    rfl
  · rw [get_fail conv (by omega)]

/-! ### Terminator search lemmas -/

theorem position_eq_some {l : List Nat} {k : Nat}
    (h1 : ∀ x ∈ l.take k, x ≠ 0) (h2 : l[k]? = some 0) :
    position (fun c => c == 0) l = some k := by
  induction l generalizing k with
  | nil => simp at h2
  | cons a t ih =>
    cases k with
    | zero =>
      simp at h2
      simp [position, h2]
    | succ k =>
      have ha : a ≠ 0 := h1 a (by simp)
      have ht : position (fun c => c == 0) t = some k :=
        ih (fun x hx => h1 x (by simp [hx])) (by simpa using h2)
      simp [position, ha, ht]

theorem read_write_u24 (v : Nat) : read_u24 (write_u24 v) = v % 2 ^ 24 := by
  simp only [read_u24, write_u24, List.getD, Nat.shiftLeft_eq, Nat.shiftRight_eq_div_pow]
  have h2 := Nat.and_pow_two_sub_one_eq_mod (v % 256) 8
  norm_num at h2 ⊢
  rw [h2]
  omega

theorem put_some {b : Buffered} {v : List Nat}
    (h : b.pos + v.length ≤ 2 * b.buffer.len) :
    ∃ b2, impl_put_bytes b v = some b2 := by
  have hc : b.pos + v.length ≤
      (if b.buffer.bytes.length ≤ b.pos + v.length then
        b.buffer.bytes ++ List.replicate b.buffer.bytes.length 0
      else b.buffer.bytes).length := by
    split <;> simp [Bytes.len] at h ⊢ <;> omega
  rw [impl_put_eq, if_pos hc]
  exact ⟨_, rfl⟩

theorem put_get_raw {b b2 : Buffered} {v : List Nat} {α : Type} (conv : List Nat → α)
    (hput : impl_put_bytes b v = some b2) :
    impl_get_bytes (set_position b2 b.pos) v.length conv =
      (.ok (conv v), advance_index (set_position b2 b.pos) v.length) := by
  obtain ⟨hpos, hle, hslice, -, -⟩ := put_spec hput
  have hlen : (set_position b2 b.pos).pos + v.length ≤ (set_position b2 b.pos).buffer.len := by
    simpa [set_position] using hle
  rw [get_spec conv hlen]
  simp only [set_position]
  rw [hslice]

theorem take_one_zero {l : List Nat} (h : l.take 1 = [0]) : l[0]? = some 0 := by
  cases l <;> simp_all

/-! ### Claim theorems -/

/-- Claim C8: for every 32-bit unsigned value v, `read_u24 (write_u24 v)` equals
`v &&& 0xFFFFFF`; `write_u24` stores the low 24 bits big-endian as
`[v >> 16, v >> 8, v]` (as bytes) and `read_u24` computes
`(b0 << 16) + (b1 << 8) + (b2 &&& 255)`. -/
theorem claim8_u24_helpers :
    ∀ v : Nat, v < 2 ^ 32 →
      read_u24 (write_u24 v) = v &&& 0xFFFFFF ∧
      write_u24 v = [(v >>> 16) % 256, (v >>> 8) % 256, v % 256] ∧
      ∀ b0 b1 b2 : Nat,
        read_u24 [b0, b1, b2] = (b0 <<< 16) + (b1 <<< 8) + (b2 &&& 255) := by
  intro v _
  refine ⟨?_, rfl, fun b0 b1 b2 => rfl⟩
  have h1 := Nat.and_pow_two_sub_one_eq_mod v 24
  norm_num at h1
  rw [read_write_u24, h1]
  norm_num

/-- Claim C8 witness: the spec scenario `write_u24 0xFFAABBCC` discards the
top byte and reads back `0xAABBCC`. -/
theorem claim8_witness :
    read_u24 (write_u24 0xFFAABBCC) = 0xFFAABBCC &&& 0xFFFFFF :=
  (claim8_u24_helpers 0xFFAABBCC (by norm_num)).1

/-- Claim C2 (refuted by evaluating the code): `get_str` searches the zero
terminator from buffer index 0, not from `pos`; on the buffer
`[0x00, 0x68, 0x69, 0x00]` with `pos = 1` the first zero byte lies at index
0 < pos, the slice `bytes[1..0]` is ill-formed and the call panics (`none`),
instead of decoding "hi" from the terminator at index 3. -/
theorem claim2_get_str_scan_from_start :
    get_str ⟨⟨[0, 104, 105, 0]⟩, 1⟩ = none := rfl

/-- Claim C3 counterexample: a put on a default-constructed (empty) cursor
fails — doubling a zero-length buffer yields a zero-length buffer and the
byte copy is out of bounds (a panic, `none`). -/
theorem claim3_counterexample : put_u8 ⟨⟨[]⟩, 0⟩ 0 = none := by decide

/-- Claim C3 (amended): a put of an L-byte slice succeeds — growing the
buffer to double its length (zero-filled) when `pos + L ≥ len` — exactly
when `pos + L ≤ 2 * len`; it then writes all L bytes at `pos` and advances
`pos` by L.  Otherwise (in particular on a zero-length buffer) the write
panics. -/
theorem claim3_put_growth :
    ∀ (b : Buffered) (v : List Nat),
      (b.pos + v.length ≤ 2 * b.buffer.len →
        ∃ b2, impl_put_bytes b v = some b2 ∧
          b2.pos = b.pos + v.length ∧
          (b2.buffer.bytes.drop b.pos).take v.length = v ∧
          b2.buffer.len =
            (if b.buffer.len ≤ b.pos + v.length then 2 * b.buffer.len
             else b.buffer.len)) ∧
      (2 * b.buffer.len < b.pos + v.length → impl_put_bytes b v = none) := by
  intro b v
  refine ⟨fun hle => ?_, fun hgt => put_none hgt⟩
  obtain ⟨b2, hb2⟩ := put_some hle
  obtain ⟨h1, _, h3, _, h5⟩ := put_spec hb2
  exact ⟨b2, hb2, h1, h3, h5⟩

/-- Claim C3 witness: a 3-byte write at position 0 of a 1-byte buffer cannot
fit even after one doubling, hence panics. -/
theorem claim3_witness : impl_put_bytes ⟨⟨[1]⟩, 0⟩ [9, 9, 9] = none :=
  (claim3_put_growth ⟨⟨[1]⟩, 0⟩ [9, 9, 9]).2 (by decide)

/-- Claim C5 (refuted by evaluating the code): the fallback `Index` impls do
return an empty slice on the empty-by-definition ranges, but on every other
range the non-empty branch indexes `self` with the very same range, which
resolves to the same impl — unconditional recursion that never returns for
any amount of fuel (a stack overflow at run time), instead of the designated
sub-slice. -/
theorem claim5_index_fallbacks_diverge :
    (∀ fuel, index_range_inclusive fuel ⟨[1, 2, 3]⟩ 0 1 = none) ∧
    (∀ fuel, index_range_to fuel ⟨[1, 2, 3]⟩ 2 = none) ∧
    (∀ fuel, index_range_from fuel ⟨[1, 2, 3]⟩ 0 = none) ∧
    index_range_inclusive 1 ⟨[1, 2, 3]⟩ 5 3 = some [] ∧
    index_range_to 1 ⟨[1, 2, 3]⟩ 0 = some [] ∧
    index_range_from 1 ⟨[1, 2, 3]⟩ 3 = some [] := by
  refine ⟨?_, ?_, ?_, by decide, by decide, by decide⟩
  · intro fuel
    induction fuel with
    | zero => rfl
    | succ n ih => simpa [index_range_inclusive] using ih
  · intro fuel
    induction fuel with
    | zero => rfl
    | succ n ih => simpa [index_range_to] using ih
  · intro fuel
    induction fuel with
    | zero => rfl
    | succ n ih => simpa [index_range_from, Bytes.len] using ih

/-- Claim C9: `get_str` locates the terminator by scanning the whole buffer
from index 0; the call panics (is not well-defined) exactly when that first
zero byte lies strictly before `pos` — otherwise it decodes `[pos, index)`. -/
theorem claim9_get_str_scan_origin :
    ∀ b : Buffered,
      get_str b = none ↔
        ∃ i, position (fun c => c == 0) b.buffer.bytes = some i ∧ i < b.pos := by
  intro b
  unfold get_str
  cases hpos : position (fun c => c == 0) b.buffer.bytes with
  | none => simp
  | some idx =>
    simp only
    by_cases hle : b.pos ≤ idx
    · rw [if_pos hle]
      constructor
      · intro hcontra
        split at hcontra <;> simp at hcontra
      · rintro ⟨i, hi, hlt⟩
        cases Option.some.inj hi
        omega
    · rw [if_neg hle]
      exact ⟨fun _ => ⟨idx, rfl, by omega⟩, fun _ => rfl⟩

/-- Claim C7: for every cursor with `pos ≤ len`, reading a fixed-width
integer of width w fails with UnexpectedEndOfInput exactly when
`remaining() < w`, and succeeds otherwise — for all nine fixed-width
getters. -/
theorem claim7_fixed_eof_iff :
    ∀ b : Buffered, b.pos ≤ b.buffer.len →
      (((get_u8 b).1 = .error .unexpectedEof ↔ remaining b < 1) ∧
        ((∃ x, (get_u8 b).1 = .ok x) ↔ 1 ≤ remaining b)) ∧
      (((get_i8 b).1 = .error .unexpectedEof ↔ remaining b < 1) ∧
        ((∃ x, (get_i8 b).1 = .ok x) ↔ 1 ≤ remaining b)) ∧
      (((get_i16 b).1 = .error .unexpectedEof ↔ remaining b < 2) ∧
        ((∃ x, (get_i16 b).1 = .ok x) ↔ 2 ≤ remaining b)) ∧
      (((get_u16 b).1 = .error .unexpectedEof ↔ remaining b < 2) ∧
        ((∃ x, (get_u16 b).1 = .ok x) ↔ 2 ≤ remaining b)) ∧
      ((get_u24 b = some (.error .unexpectedEof, b) ↔ remaining b < 3) ∧
        (3 ≤ remaining b → ∃ x st, get_u24 b = some (.ok x, st))) ∧
      (((get_i32 b).1 = .error .unexpectedEof ↔ remaining b < 4) ∧
        ((∃ x, (get_i32 b).1 = .ok x) ↔ 4 ≤ remaining b)) ∧
      (((get_u32 b).1 = .error .unexpectedEof ↔ remaining b < 4) ∧
        ((∃ x, (get_u32 b).1 = .ok x) ↔ 4 ≤ remaining b)) ∧
      (((get_i64 b).1 = .error .unexpectedEof ↔ remaining b < 8) ∧
        ((∃ x, (get_i64 b).1 = .ok x) ↔ 8 ≤ remaining b)) ∧
      (((get_u64 b).1 = .error .unexpectedEof ↔ remaining b < 8) ∧
        ((∃ x, (get_u64 b).1 = .ok x) ↔ 8 ≤ remaining b)) := by
  intro b hb
  refine ⟨⟨(get_err_iff b 1 _).trans (by unfold remaining; omega),
      (get_ok_iff b 1 _).trans (by unfold remaining; omega)⟩,
    ⟨(get_err_iff b 1 _).trans (by unfold remaining; omega),
      (get_ok_iff b 1 _).trans (by unfold remaining; omega)⟩,
    ⟨(get_err_iff b 2 _).trans (by unfold remaining; omega),
      (get_ok_iff b 2 _).trans (by unfold remaining; omega)⟩,
    ⟨(get_err_iff b 2 _).trans (by unfold remaining; omega),
      (get_ok_iff b 2 _).trans (by unfold remaining; omega)⟩,
    ⟨?_, ?_⟩,
    ⟨(get_err_iff b 4 _).trans (by unfold remaining; omega),
      (get_ok_iff b 4 _).trans (by unfold remaining; omega)⟩,
    ⟨(get_err_iff b 4 _).trans (by unfold remaining; omega),
      (get_ok_iff b 4 _).trans (by unfold remaining; omega)⟩,
    ⟨(get_err_iff b 8 _).trans (by unfold remaining; omega),
      (get_ok_iff b 8 _).trans (by unfold remaining; omega)⟩,
    ⟨(get_err_iff b 8 _).trans (by unfold remaining; omega),
      (get_ok_iff b 8 _).trans (by unfold remaining; omega)⟩⟩
  · unfold get_u24
    rw [if_pos hb]
    by_cases h3 : 3 ≤ remaining b
    · rw [if_pos (by simpa [is_available] using h3)]
      simp
      omega
    · rw [if_neg (by simpa [is_available] using h3)]
      simp
      omega
  · intro h3
    unfold get_u24
    rw [if_pos hb, if_pos (by simpa [is_available] using h3)]
    exact ⟨_, _, rfl⟩

/-- Claim C7 witness: on the empty default cursor every width-1 read fails
with UnexpectedEndOfInput. -/
theorem claim7_witness :
    (get_u8 ⟨⟨[]⟩, 0⟩).1 = .error .unexpectedEof :=
  ((claim7_fixed_eof_iff ⟨⟨[]⟩, 0⟩ (by decide)).1.1).mpr (by decide)

/-- Claim C4: whenever a get operation returns an error, the cursor is
completely unchanged (same `pos`, same buffer, hence same length and
contents). -/
theorem claim4_read_error_no_mutation :
    ∀ (b : Buffered) (e : ErrKind),
      ((get_u8 b).1 = .error e → (get_u8 b).2 = b) ∧
      ((get_i8 b).1 = .error e → (get_i8 b).2 = b) ∧
      ((get_i16 b).1 = .error e → (get_i16 b).2 = b) ∧
      ((get_u16 b).1 = .error e → (get_u16 b).2 = b) ∧
      (∀ r, get_u24 b = some r → r.1 = .error e → r.2 = b) ∧
      ((get_i32 b).1 = .error e → (get_i32 b).2 = b) ∧
      ((get_u32 b).1 = .error e → (get_u32 b).2 = b) ∧
      ((get_i64 b).1 = .error e → (get_i64 b).2 = b) ∧
      ((get_u64 b).1 = .error e → (get_u64 b).2 = b) ∧
      (∀ r, get_str b = some r → r.1 = .error e → r.2 = b) := by
  intro b e
  refine ⟨get_err_state, get_err_state, get_err_state, get_err_state, ?_, get_err_state,
    get_err_state, get_err_state, get_err_state, ?_⟩
  · intro r hr herr
    unfold get_u24 at hr
    split at hr
    · split at hr
      · cases Option.some.inj hr
        simp at herr
      · cases Option.some.inj hr
        rfl
    · exact absurd hr (by simp)
  · intro r hr herr
    unfold get_str at hr
    split at hr
    · cases Option.some.inj hr
      rfl
    · dsimp only at hr
      split at hr
      · split at hr
        · cases Option.some.inj hr
          simp at herr
        · cases Option.some.inj hr
          rfl
      · exact absurd hr (by simp)

/-- Claim C4 witness: a failing `get_u8` on the empty cursor leaves the
cursor exactly as it was. -/
theorem claim4_witness : (get_u8 ⟨⟨[]⟩, 0⟩).2 = ⟨⟨[]⟩, 0⟩ :=
  (claim4_read_error_no_mutation ⟨⟨[]⟩, 0⟩ .unexpectedEof).1 rfl

/-- Claim C10: every get operation — succeeding or failing — leaves the
underlying buffer (contents and length) unchanged; only `pos` may move. -/
theorem claim10_gets_preserve_buffer :
    ∀ b : Buffered,
      (get_u8 b).2.buffer = b.buffer ∧
      (get_i8 b).2.buffer = b.buffer ∧
      (get_i16 b).2.buffer = b.buffer ∧
      (get_u16 b).2.buffer = b.buffer ∧
      (∀ r, get_u24 b = some r → r.2.buffer = b.buffer) ∧
      (get_i32 b).2.buffer = b.buffer ∧
      (get_u32 b).2.buffer = b.buffer ∧
      (get_i64 b).2.buffer = b.buffer ∧
      (get_u64 b).2.buffer = b.buffer ∧
      (∀ r, get_str b = some r → r.2.buffer = b.buffer) := by
  intro b
  refine ⟨get_buffer_eq b 1 _, get_buffer_eq b 1 _, get_buffer_eq b 2 _, get_buffer_eq b 2 _,
    ?_, get_buffer_eq b 4 _, get_buffer_eq b 4 _, get_buffer_eq b 8 _, get_buffer_eq b 8 _, ?_⟩
  · intro r hr
    unfold get_u24 at hr
    split at hr
    · split at hr <;> cases Option.some.inj hr <;> rfl
    · exact absurd hr (by simp)
  · intro r hr
    unfold get_str at hr
    split at hr
    · cases Option.some.inj hr
      rfl
    · dsimp only at hr
      split at hr
      · split at hr <;> cases Option.some.inj hr <;> rfl
      · exact absurd hr (by simp)

/-- Claim C10 witness: a successful `get_str` leaves the byte contents
untouched. -/
theorem claim10_witness :
    ((Except.ok [104, 105] : Except ErrKind (List Nat)),
        (⟨⟨[104, 105, 0]⟩, 3⟩ : Buffered)).2.buffer =
      (⟨⟨[104, 105, 0]⟩, 0⟩ : Buffered).buffer :=
  ((claim10_gets_preserve_buffer ⟨⟨[104, 105, 0]⟩, 0⟩).2.2.2.2.2.2.2.2.2) _ rfl

/-- Claim C1: for every supported integer width (u8, i8, u16, i16, u24, u32,
i32, u64) and every value of that type, after a successful put at position
`p`, `set_position p` followed by the matching get returns the value. -/
theorem claim1_put_get_roundtrip :
    (∀ (b b2 : Buffered) (v : Nat), v < 2 ^ 8 → put_u8 b v = some b2 →
      (get_u8 (set_position b2 b.pos)).1 = .ok v) ∧
    (∀ (b b2 : Buffered) (v : Int), -128 ≤ v → v < 128 → put_i8 b v = some b2 →
      (get_i8 (set_position b2 b.pos)).1 = .ok v) ∧
    (∀ (b b2 : Buffered) (v : Nat), v < 2 ^ 16 → put_u16 b v = some b2 →
      (get_u16 (set_position b2 b.pos)).1 = .ok v) ∧
    (∀ (b b2 : Buffered) (v : Int), -32768 ≤ v → v < 32768 → put_i16 b v = some b2 →
      (get_i16 (set_position b2 b.pos)).1 = .ok v) ∧
    (∀ (b b2 : Buffered) (v : Nat), v < 2 ^ 24 → put_u24 b v = some b2 →
      ∃ st, get_u24 (set_position b2 b.pos) = some (.ok v, st)) ∧
    (∀ (b b2 : Buffered) (v : Nat), v < 2 ^ 32 → put_u32 b v = some b2 →
      (get_u32 (set_position b2 b.pos)).1 = .ok v) ∧
    (∀ (b b2 : Buffered) (v : Int), -2147483648 ≤ v → v < 2147483648 →
      put_i32 b v = some b2 → (get_i32 (set_position b2 b.pos)).1 = .ok v) ∧
    (∀ (b b2 : Buffered) (v : Nat), v < 2 ^ 64 → put_u64 b v = some b2 →
      (get_u64 (set_position b2 b.pos)).1 = .ok v) := by
  refine ⟨?_, ?_, ?_, ?_, ?_, ?_, ?_, ?_⟩
  · intro b b2 v hv hput
    have h := put_get_raw fromBe hput
    rw [toBe_length] at h
    show (impl_get_bytes (set_position b2 b.pos) 1 fromBe).1 = .ok v
    rw [h]
    show Except.ok (fromBe (toBe 1 v)) = Except.ok v
    rw [fromBe_toBe_of_lt (by simpa using hv)]
  · intro b b2 v h1 h2 hput
    have h := put_get_raw (fun s => toSigned 1 (fromBe s)) hput
    rw [toBe_length] at h
    show (impl_get_bytes (set_position b2 b.pos) 1 (fun s => toSigned 1 (fromBe s))).1 = .ok v
    rw [h]
    show Except.ok (toSigned 1 (fromBe (toBe 1 (toUnsigned 1 v)))) = Except.ok v
    rw [fromBe_toBe_of_lt (toUnsigned_lt 1 v), toSigned_toUnsigned_1 v h1 h2]
  · intro b b2 v hv hput
    have h := put_get_raw fromBe hput
    rw [toBe_length] at h
    show (impl_get_bytes (set_position b2 b.pos) 2 fromBe).1 = .ok v
    rw [h]
    show Except.ok (fromBe (toBe 2 v)) = Except.ok v
    rw [fromBe_toBe_of_lt (by simpa using hv)]
  · intro b b2 v h1 h2 hput
    have h := put_get_raw (fun s => toSigned 2 (fromBe s)) hput
    rw [toBe_length] at h
    show (impl_get_bytes (set_position b2 b.pos) 2 (fun s => toSigned 2 (fromBe s))).1 = .ok v
    rw [h]
    show Except.ok (toSigned 2 (fromBe (toBe 2 (toUnsigned 2 v)))) = Except.ok v
    rw [fromBe_toBe_of_lt (toUnsigned_lt 2 v), toSigned_toUnsigned_2 v h1 h2]
  · intro b b2 v hv hput
    obtain ⟨hpos, hle, hslice, -, -⟩ := put_spec hput
    have hle3 : b.pos + 3 ≤ b2.buffer.len := hle
    refine ⟨advance_index (set_position b2 b.pos) 3, ?_⟩
    unfold get_u24
    rw [if_pos (show (set_position b2 b.pos).pos ≤ (set_position b2 b.pos).buffer.len by
      simp only [set_position]
      omega)]
    rw [if_pos (show is_available (set_position b2 b.pos) 3 = true by
      simp only [is_available, remaining, set_position, decide_eq_true_eq]
      omega)]
    simp only [set_position]
    rw [show (b2.buffer.bytes.drop b.pos).take 3 = write_u24 v from hslice,
      read_write_u24, Nat.mod_eq_of_lt hv]
  · intro b b2 v hv hput
    have h := put_get_raw fromBe hput
    rw [toBe_length] at h
    show (impl_get_bytes (set_position b2 b.pos) 4 fromBe).1 = .ok v
    rw [h]
    show Except.ok (fromBe (toBe 4 v)) = Except.ok v
    rw [fromBe_toBe_of_lt (by simpa using hv)]
  · intro b b2 v h1 h2 hput
    have h := put_get_raw (fun s => toSigned 4 (fromBe s)) hput
    rw [toBe_length] at h
    show (impl_get_bytes (set_position b2 b.pos) 4 (fun s => toSigned 4 (fromBe s))).1 = .ok v
    rw [h]
    show Except.ok (toSigned 4 (fromBe (toBe 4 (toUnsigned 4 v)))) = Except.ok v
    rw [fromBe_toBe_of_lt (toUnsigned_lt 4 v), toSigned_toUnsigned_4 v h1 h2]
  · intro b b2 v hv hput
    have h := put_get_raw fromBe hput
    rw [toBe_length] at h
    show (impl_get_bytes (set_position b2 b.pos) 8 fromBe).1 = .ok v
    rw [h]
    show Except.ok (fromBe (toBe 8 v)) = Except.ok v
    rw [fromBe_toBe_of_lt (by simpa using hv)]

/-- Claim C1 witness: writing the byte 5 into a 2-byte buffer and reading
it back from the write position yields 5. -/
theorem claim1_witness :
    (get_u8 (set_position ⟨⟨[5, 0]⟩, 1⟩ 0)).1 = .ok 5 :=
  claim1_put_get_roundtrip.1 ⟨⟨[0, 0]⟩, 0⟩ ⟨⟨[5, 0]⟩, 1⟩ 5 (by decide) (by decide)

/-- Claim C6 counterexample: "A" is valid UTF-8 with no zero byte, and
`put_str` at position 1 of the buffer `[0, 7]` succeeds and advances the
position by `len + 1 = 2`; but because the buffer holds a zero byte at
index 0 — before the write position — `get_str` after repositioning finds
that zero first and panics (`none`) instead of returning "A". -/
theorem claim6_counterexample :
    utf8Valid [65] = true ∧ (∀ x ∈ [65], x ≠ 0) ∧
    put_str ⟨⟨[0, 7]⟩, 1⟩ [65] = some ⟨⟨[0, 65, 0, 0]⟩, 3⟩ ∧
    get_str (set_position ⟨⟨[0, 65, 0, 0]⟩, 3⟩ 1) = none :=
  ⟨rfl, by decide, by decide, rfl⟩

/-- Claim C6 (amended): for every valid UTF-8 string s with no zero byte,
and every cursor whose position lies within the buffer, whose bytes before
the position are all nonzero, and on which `put_str s` succeeds, the write
advances the position by `len(s) + 1`, and repositioning to the write
position followed by `get_str` returns s and advances by `len(s) + 1`. -/
theorem claim6_put_str_roundtrip :
    ∀ (b b2 : Buffered) (s : List Nat),
      utf8Valid s = true →
      (∀ x ∈ s, x ≠ 0) →
      (∀ x ∈ b.buffer.bytes.take b.pos, x ≠ 0) →
      b.pos ≤ b.buffer.len →
      put_str b s = some b2 →
      b2.pos = b.pos + (s.length + 1) ∧
      get_str (set_position b2 b.pos) =
        some (.ok s, set_position b2 (b.pos + (s.length + 1))) := by
  intro b b2 s hval hnz hpre hple hput
  unfold put_str at hput
  cases h1 : impl_put_bytes b s with
  | none =>
    rw [h1] at hput
    exact absurd hput (by simp)
  | some b1 =>
    rw [h1] at hput
    have hput2 : impl_put_bytes b1 [0] = some b2 := hput
    obtain ⟨hpos1, hle1, hslice1, htake1, -⟩ := put_spec h1
    obtain ⟨hpos2, hle2, hslice2, htake2, -⟩ := put_spec hput2
    have hpos2' : b2.pos = b.pos + (s.length + 1) := by
      rw [hpos2, hpos1]
      simp
      omega
    refine ⟨hpos2', ?_⟩
    have hb1le : b1.pos ≤ b1.buffer.len := by
      rw [hpos1]
      simpa using hle1
    have htk2 : b2.buffer.bytes.take b1.pos = b1.buffer.bytes.take b1.pos := htake2 hb1le
    have htkb : b2.buffer.bytes.take b.pos = b.buffer.bytes.take b.pos := by
      have e1 : b1.buffer.bytes.take b.pos = b.buffer.bytes.take b.pos := htake1 hple
      have e2 : b2.buffer.bytes.take b.pos = b1.buffer.bytes.take b.pos := by
        calc b2.buffer.bytes.take b.pos
            = (b2.buffer.bytes.take b1.pos).take b.pos := by
              rw [List.take_take]
              congr 1
              omega
          _ = (b1.buffer.bytes.take b1.pos).take b.pos := by rw [htk2]
          _ = b1.buffer.bytes.take b.pos := by
              rw [List.take_take]
              congr 1
              omega
      rw [e2, e1]
    have hsr : (b2.buffer.bytes.drop b.pos).take s.length = s := by
      have h2 : (b2.buffer.bytes.take b1.pos).drop b.pos =
          (b1.buffer.bytes.take b1.pos).drop b.pos := by rw [htk2]
      rw [List.drop_take, List.drop_take] at h2
      have hd : b1.pos - b.pos = s.length := by omega
      rw [hd] at h2
      rw [h2]
      exact hslice1
    have hzero : b2.buffer.bytes[b1.pos]? = some 0 := by
      have hget : (b2.buffer.bytes.drop b1.pos)[0]? = some 0 := take_one_zero hslice2
      rw [List.getElem?_drop] at hget
      simpa using hget
    have hpre2 : ∀ x ∈ b2.buffer.bytes.take b1.pos, x ≠ 0 := by
      rw [show b1.pos = b.pos + s.length from hpos1, List.take_add]
      intro x hx
      rcases List.mem_append.mp hx with hx1 | hx2
      · exact hpre x (htkb ▸ hx1)
      · rw [hsr] at hx2
        exact hnz x hx2
    have hfind : position (fun c => c == 0) b2.buffer.bytes = some b1.pos :=
      position_eq_some hpre2 hzero
    unfold get_str
    have hfind' : position (fun c => c == 0) (set_position b2 b.pos).buffer.bytes =
        some b1.pos := hfind
    rw [hfind']
    dsimp only
    rw [if_pos (show (set_position b2 b.pos).pos ≤ b1.pos by
      simp only [set_position]
      omega)]
    have hsl : ((set_position b2 b.pos).buffer.bytes.drop (set_position b2 b.pos).pos).take
        (b1.pos - (set_position b2 b.pos).pos) = s := by
      simp only [set_position]
      rw [show b1.pos - b.pos = s.length by omega]
      exact hsr
    rw [hsl, if_pos hval]
    simp only [set_position]

/-- Claim C6 witness: writing "hi" into the cursor over `[3]` at position 0
and reading it back: position advances by 3 on both the write and the
read. -/
theorem claim6_witness :
    (⟨⟨[104, 105, 0, 0]⟩, 3⟩ : Buffered).pos = 0 + (2 + 1) ∧
    get_str (set_position ⟨⟨[104, 105, 0, 0]⟩, 3⟩ 0) =
      some (.ok [104, 105], set_position ⟨⟨[104, 105, 0, 0]⟩, 3⟩ (0 + (2 + 1))) :=
  claim6_put_str_roundtrip ⟨⟨[3]⟩, 0⟩ ⟨⟨[104, 105, 0, 0]⟩, 3⟩ [104, 105]
    rfl (by decide) (by decide) (by decide) (by decide)

end Buffed
